import Mathlib

/-!
Verification of the DevStack orchestration core (`devstack/devstack.py`).

The Python code is shallowly embedded: dictionaries become insertion-ordered
association lists (`setA` / `getA` mirror `dict.__setitem__` / lookup), the
`__order` while-loop becomes a fuel-indexed recursion (`orderLoop`) whose fuel
is provably sufficient (`depSize` strictly decreases every iteration), and
`sys.exit(1)` is modelled as the distinguished result `ResolveRes.failed`.
-/

namespace DevStackModel

/-! ## Python dict model: insertion-ordered association lists

`d[k] = v` keeps the key at its existing position when present and appends
otherwise; lookup finds the unique binding.  -/

def setA {α : Type} (m : List (String × α)) (k : String) (v : α) :
    List (String × α) :=
  if m.any (fun kv => kv.1 == k) then
    m.map (fun kv => if kv.1 == k then (k, v) else kv)
  else m ++ [(k, v)]

def getA {α : Type} (m : List (String × α)) (k : String) : Option α :=
  (m.find? (fun kv => kv.1 == k)).map Prod.snd

theorem getA_setA_self {α : Type} (m : List (String × α)) (k : String) (v : α) :
    getA (setA m k v) k = some v := by
  unfold setA getA
  by_cases hm : m.any (fun kv => kv.1 == k) = true
  · simp only [hm, if_pos]
    induction m with
    | nil => simp at hm
    | cons kv rest ih =>
      by_cases hk : kv.1 = k
      · simp [List.find?, hk]
      · have hk' : (kv.1 == k) = false := beq_false_of_ne hk
        simp only [List.any_cons, hk', Bool.false_or] at hm
        simp only [List.map_cons, hk', if_neg, Bool.false_eq_true, not_false_iff,
          List.find?]
        simpa [List.find?, hk'] using ih hm
  · simp only [hm, if_neg, Bool.false_eq_true, not_false_iff]
    have hnone : m.find? (fun kv => kv.1 == k) = none := by
      rw [List.find?_eq_none]
      intro kv hkv
      intro hbeq
      exact hm (List.any_eq_true.mpr ⟨kv, hkv, hbeq⟩)
    rw [List.find?_append, hnone]
    simp [List.find?]

theorem find?_setMap {α : Type} (m : List (String × α)) (k k' : String) (v : α)
    (h : k' ≠ k) :
    (m.map (fun kv => if kv.1 == k then (k, v) else kv)).find?
        (fun kv => kv.1 == k')
      = m.find? (fun kv => kv.1 == k') := by
  induction m with
  | nil => rfl
  | cons kv rest ih =>
    by_cases hk : kv.1 = k
    · have h1 : (kv.1 == k) = true := beq_iff_eq.mpr hk
      have h2 : (k == k') = false := beq_false_of_ne (fun he => h he.symm)
      have h3 : (kv.1 == k') = false := by
        rw [hk]; exact h2
      simp only [List.map_cons, h1, if_pos, List.find?, h2, h3]
      exact ih
    · have h1 : (kv.1 == k) = false := beq_false_of_ne hk
      simp only [List.map_cons, h1, Bool.false_eq_true, if_neg, not_false_iff,
        List.find?]
      cases hkv' : (kv.1 == k') with
      | true => rfl
      | false => exact ih

theorem getA_setA_ne {α : Type} (m : List (String × α)) (k k' : String) (v : α)
    (h : k' ≠ k) : getA (setA m k v) k' = getA m k' := by
  unfold setA getA
  by_cases hm : m.any (fun kv => kv.1 == k) = true
  · simp only [hm, if_pos]
    rw [find?_setMap m k k' v h]
  · simp only [hm, if_neg, Bool.false_eq_true, not_false_iff]
    rw [List.find?_append]
    have hone : List.find? (fun kv => kv.1 == k') [(k, v)] = none := by
      simp [List.find?, beq_false_of_ne (fun he : k = k' => h he.symm)]
    cases hfind : m.find? (fun kv => kv.1 == k') with
    | some x => simp [hfind]
    | none => simp [hfind, hone]

/-! ## Dependency graph and resolver (`DevStack.__order`)

A graph maps layer names to dependency entries; the entry `none` is the
"no dependency" sentinel `(None,)` recorded by `add_layer`.  -/

abbrev Dep := Option String

abbrev Graph := List (String × List Dep)

def keys (d : Graph) : List String := d.map Prod.fst

/-- All dependency entries of the graph, in iteration order
(`i for v in d.values() for i in v`). -/
def allDeps (d : Graph) : List Dep := d.foldr (fun kv acc => kv.2 ++ acc) []

/-- First-occurrence deduplication, modelling that Python's `t` is a `set`. -/
def dedupF (l : List Dep) : List Dep :=
  l.foldl (fun acc x => if x ∈ acc then acc else acc ++ [x]) []

/-- Model of `set(i for v in d.values() for i in v) - set(d.keys())`:
dependency names that are not keys of the graph. -/
def valsNotKeys (d : Graph) : List Dep :=
  dedupF ((allDeps d).filter (fun v => decide (v ∉ (keys d).map some)))

/-- Keys whose dependency set is empty (`k for k, v in d.items() if not v`). -/
def emptyKeys (d : Graph) : List String :=
  (d.filter (fun kv => decide (kv.2 = []))).map Prod.fst

/-- The ready set `t` of one iteration of the resolver loop. -/
def ready (d : Graph) : List Dep :=
  valsNotKeys d ++ (emptyKeys d).map some

/-- Model of `d = dict(((k, v - t) for k, v in d.items() if v))`. -/
def cleanup (d : Graph) (t : List Dep) : Graph :=
  (d.filter (fun kv => decide (kv.2 ≠ []))).map
    (fun kv => (kv.1, kv.2.filter (fun v => decide (v ∉ t))))

/-- Loop measure: number of entries plus total number of dependency items. -/
def depSize (d : Graph) : Nat := (d.map (fun kv => kv.2.length + 1)).sum

/-- Result of dependency resolution: a produced ordering, the fatal
`sys.exit(1)` of `"Dependency resolution failed."`, or fuel exhaustion
(which provably never occurs for the fuel used by `resolve`). -/
inductive ResolveRes where
  | ok (r : List String)
  | failed
  | out
deriving DecidableEq

def orderLoop : Nat → Graph → List String → ResolveRes
  | 0, _, _ => .out
  | fuel + 1, d, acc =>
    if d.isEmpty then .ok acc
    else
      if (ready d).isEmpty then .failed
      else orderLoop fuel (cleanup d (ready d)) (acc ++ (ready d).filterMap id)

/-- Model of `DevStack.resolve` / `DevStack.__order`: run the loop with enough fuel. -/
def resolve (g : Graph) : ResolveRes := orderLoop (depSize g + 1) g []

/-! ### Membership facts about the loop ingredients -/

theorem mem_dedupF_aux (x : Dep) :
    ∀ (l acc : List Dep),
      (x ∈ l.foldl (fun acc y => if y ∈ acc then acc else acc ++ [y]) acc
        ↔ x ∈ acc ∨ x ∈ l) := by
  intro l
  induction l with
  | nil => intro acc; simp
  | cons y l ih =>
    intro acc
    rw [List.foldl_cons, ih]
    by_cases hy : y ∈ acc
    · simp only [hy, if_pos, List.mem_cons]
      constructor
      · rintro (h | h)
        · exact Or.inl h
        · exact Or.inr (Or.inr h)
      · rintro (h | h | h)
        · exact Or.inl h
        · exact Or.inl (h ▸ hy)
        · exact Or.inr h
    · simp only [hy, if_neg, not_false_iff, List.mem_append, List.mem_singleton,
        List.mem_cons]
      tauto

theorem mem_dedupF (x : Dep) (l : List Dep) : x ∈ dedupF l ↔ x ∈ l := by
  unfold dedupF
  rw [mem_dedupF_aux]
  simp

theorem mem_allDeps (x : Dep) : ∀ (d : Graph),
    (x ∈ allDeps d ↔ ∃ kv, kv ∈ d ∧ x ∈ kv.2) := by
  intro d
  induction d with
  | nil => simp [allDeps]
  | cons kv rest ih =>
    simp only [allDeps, List.foldr_cons, List.mem_append] at *
    rw [ih]
    constructor
    · rintro (h | ⟨kv', h1, h2⟩)
      · exact ⟨kv, List.mem_cons_self kv rest, h⟩
      · exact ⟨kv', List.mem_cons_of_mem kv h1, h2⟩
    · rintro ⟨kv', h1, h2⟩
      rcases List.mem_cons.mp h1 with h1 | h1
      · exact Or.inl (h1 ▸ h2)
      · exact Or.inr ⟨kv', h1, h2⟩

theorem mem_valsNotKeys (x : Dep) (d : Graph) :
    x ∈ valsNotKeys d ↔ (∃ kv, kv ∈ d ∧ x ∈ kv.2) ∧ x ∉ (keys d).map some := by
  unfold valsNotKeys
  rw [mem_dedupF, List.mem_filter, mem_allDeps, decide_eq_true_iff]

theorem mem_emptyKeys (k : String) (d : Graph) :
    k ∈ emptyKeys d ↔ ∃ kv, kv ∈ d ∧ kv.1 = k ∧ kv.2 = [] := by
  unfold emptyKeys
  simp only [List.mem_map, List.mem_filter, decide_eq_true_iff]
  constructor
  · rintro ⟨kv, ⟨h1, h2⟩, h3⟩
    exact ⟨kv, h1, h3, h2⟩
  · rintro ⟨kv, h1, h2, h3⟩
    exact ⟨kv, ⟨h1, h3⟩, h2⟩

theorem cleanup_cons (kv : String × List Dep) (rest : Graph) (t : List Dep) :
    cleanup (kv :: rest) t =
      if kv.2 = [] then cleanup rest t
      else (kv.1, kv.2.filter (fun v => decide (v ∉ t))) :: cleanup rest t := by
  by_cases h : kv.2 = []
  · simp [cleanup, List.filter, h]
  · simp [cleanup, List.filter, h]

theorem depSize_cons (kv : String × List Dep) (rest : Graph) :
    depSize (kv :: rest) = kv.2.length + 1 + depSize rest := by
  simp [depSize]

/-- Each entry of `cleanup d t` arises from an entry of `d` with a nonempty
dependency set, by striking the members of `t`. -/
theorem mem_cleanup (kv' : String × List Dep) (d : Graph) (t : List Dep) :
    kv' ∈ cleanup d t ↔
      ∃ kv, kv ∈ d ∧ kv.2 ≠ [] ∧
        kv' = (kv.1, kv.2.filter (fun v => decide (v ∉ t))) := by
  unfold cleanup
  simp only [List.mem_map, List.mem_filter, decide_eq_true_iff]
  constructor
  · rintro ⟨kv, ⟨h1, h2⟩, h3⟩
    exact ⟨kv, h1, h2, h3.symm⟩
  · rintro ⟨kv, h1, h2, h3⟩
    exact ⟨kv, ⟨h1, h2⟩, h3.symm⟩

/-! ### The loop measure strictly decreases whenever the ready set is
nonempty, hence the fuel `depSize g + 1` used by `resolve` never runs out. -/

theorem depSize_cleanup_le (t : List Dep) : ∀ (d : Graph),
    depSize (cleanup d t) ≤ depSize d := by
  intro d
  induction d with
  | nil => simp [cleanup, depSize]
  | cons kv rest ih =>
    rw [cleanup_cons, depSize_cons]
    by_cases h : kv.2 = []
    · simp only [h, if_pos]
      omega
    · simp only [h, if_neg, not_false_iff, depSize_cons]
      have := List.length_filter_le (fun v => decide (v ∉ t)) kv.2
      omega

theorem depSize_cleanup_lt (t : List Dep) :
    ∀ (d : Graph) (kv : String × List Dep), kv ∈ d →
      (kv.2 = [] ∨ ∃ x ∈ kv.2, x ∈ t) →
      depSize (cleanup d t) < depSize d := by
  intro d
  induction d with
  | nil => intro kv h; exact absurd h (List.not_mem_nil kv)
  | cons hd rest ih =>
    intro kv hmem hcase
    rw [cleanup_cons, depSize_cons]
    rcases List.mem_cons.mp hmem with heq | hrest
    · subst heq
      rcases hcase with hnil | ⟨x, hx, hxt⟩
      · simp only [hnil, if_pos]
        have := depSize_cleanup_le t rest
        simp [hnil] at *
        omega
      · have hne : kv.2 ≠ [] := fun h => List.not_mem_nil x (h ▸ hx)
        simp only [hne, if_neg, not_false_iff, depSize_cons]
        have hlt : (kv.2.filter (fun v => decide (v ∉ t))).length < kv.2.length := by
          rw [List.length_filter_lt_length_iff_exists]
          exact ⟨x, hx, by simp [decide_eq_false_iff_not, hxt]⟩
        have := depSize_cleanup_le t rest
        omega
    · by_cases h : hd.2 = []
      · simp only [h, if_pos]
        have := ih kv hrest hcase
        omega
      · simp only [h, if_neg, not_false_iff, depSize_cons]
        have h1 := ih kv hrest hcase
        have h2 := List.length_filter_le (fun v => decide (v ∉ t)) hd.2
        omega

/-- A nonempty ready set exhibits an entry of `d` that is either empty or
loses a dependency, so the measure drops. -/
theorem ready_witness (d : Graph) (h : ready d ≠ []) :
    ∃ kv, kv ∈ d ∧ (kv.2 = [] ∨ ∃ x ∈ kv.2, x ∈ ready d) := by
  unfold ready at h
  by_cases hv : valsNotKeys d = []
  · have hek : (emptyKeys d).map some ≠ [] := by
      intro hc; exact h (by rw [hv, hc]; rfl)
    have hek' : emptyKeys d ≠ [] := fun hc => hek (by rw [hc]; rfl)
    obtain ⟨k, hk⟩ := List.exists_mem_of_ne_nil _ hek'
    obtain ⟨kv, hkv, _, hnil⟩ := (mem_emptyKeys k d).mp hk
    exact ⟨kv, hkv, Or.inl hnil⟩
  · obtain ⟨x, hx⟩ := List.exists_mem_of_ne_nil _ hv
    obtain ⟨⟨kv, hkv, hxkv⟩, _⟩ := (mem_valsNotKeys x d).mp hx
    exact ⟨kv, hkv, Or.inr ⟨x, hxkv, List.mem_append_left _ hx⟩⟩

theorem depSize_step_lt (d : Graph) (h : (ready d).isEmpty = false) :
    depSize (cleanup d (ready d)) < depSize d := by
  obtain ⟨kv, hkv, hcase⟩ := ready_witness d (List.isEmpty_eq_false.mp h)
  exact depSize_cleanup_lt (ready d) d kv hkv hcase

/-- With fuel exceeding the measure, the loop never reports fuel exhaustion:
it either completes or fails as the Python loop would. -/
theorem orderLoop_ne_out : ∀ (fuel : Nat) (d : Graph) (acc : List String),
    depSize d < fuel → orderLoop fuel d acc ≠ .out := by
  intro fuel
  induction fuel with
  | zero => intro d acc h; omega
  | succ n ih =>
    intro d acc h
    unfold orderLoop
    by_cases hd : d.isEmpty = true
    · simp [hd]
    · rw [Bool.not_eq_true] at hd
      by_cases ht : (ready d).isEmpty = true
      · simp [hd, ht]
      · rw [Bool.not_eq_true] at ht
        simp only [hd, ht, Bool.false_eq_true, if_neg, not_false_iff]
        apply ih
        have := depSize_step_lt d ht
        omega

/-! ### Key bookkeeping: `cleanup` keeps a sub-multiset of the keys -/

theorem keys_cleanup (d : Graph) (t : List Dep) :
    keys (cleanup d t) = keys (d.filter (fun kv => decide (kv.2 ≠ []))) := by
  unfold cleanup keys
  rw [List.map_map]
  rfl

theorem nodup_keys_cleanup (d : Graph) (t : List Dep)
    (h : (keys d).Nodup) : (keys (cleanup d t)).Nodup := by
  rw [keys_cleanup]
  exact List.Nodup.sublist (List.Sublist.map Prod.fst (List.filter_sublist d)) h

/-- In a graph with distinct keys (a Python dict), a key determines its
dependency entry. -/
theorem uniq_entry : ∀ (d : Graph), (keys d).Nodup →
    ∀ kv kv' : String × List Dep, kv ∈ d → kv' ∈ d → kv.1 = kv'.1 → kv = kv' := by
  intro d
  induction d with
  | nil => intro _ kv kv' h; exact absurd h (List.not_mem_nil kv)
  | cons hd rest ih =>
    intro hnd kv kv' hm hm' hk
    have hnd' : hd.1 ∉ keys rest ∧ (keys rest).Nodup := by
      have : keys (hd :: rest) = hd.1 :: keys rest := rfl
      rw [this] at hnd
      exact ⟨(List.nodup_cons.mp hnd).1, (List.nodup_cons.mp hnd).2⟩
    rcases List.mem_cons.mp hm with he | hr
    · rcases List.mem_cons.mp hm' with he' | hr'
      · rw [he, he']
      · exfalso
        apply hnd'.1
        have hfst : hd.1 = kv'.1 := by rw [← he]; exact hk
        rw [hfst]
        exact List.mem_map.mpr ⟨kv', hr', rfl⟩
    · rcases List.mem_cons.mp hm' with he' | hr'
      · exfalso
        apply hnd'.1
        have hfst : hd.1 = kv.1 := by rw [← he']; exact hk.symm
        rw [hfst]
        exact List.mem_map.mpr ⟨kv, hr, rfl⟩
      · exact ih hnd'.2 kv kv' hr hr' hk

theorem mem_filterMap_id (k : String) (t : List Dep) :
    k ∈ t.filterMap id ↔ some k ∈ t := by
  rw [List.mem_filterMap]
  constructor
  · rintro ⟨a, ha, hak⟩
    exact hak ▸ ha
  · intro h
    exact ⟨some k, h, rfl⟩

theorem mem_keys (k : String) (d : Graph) :
    k ∈ keys d ↔ ∃ kv, kv ∈ d ∧ kv.1 = k := by
  unfold keys
  exact List.mem_map

/-! ### `indexOf` arithmetic over a prefix decomposition -/

theorem indexOf_lt_of_mem_left (a : String) (l u : List String) (h : a ∈ l) :
    (l ++ u).indexOf a < l.length := by
  rw [List.indexOf_append_of_mem h]
  exact List.indexOf_lt_length.mpr h

theorem indexOf_ge_of_not_mem_left (a : String) (l u : List String)
    (h : a ∉ l) : l.length ≤ (l ++ u).indexOf a := by
  rw [List.indexOf_append_of_not_mem h]
  omega

/-! ### Main invariant of the resolver loop

If the loop completes with output `r`, then `r` extends the accumulator and,
for every entry still in the graph, the entry's key ends up in `r` strictly
after every name its dependency set mentions. -/

theorem orderLoop_invariant :
    ∀ (fuel : Nat) (d : Graph) (acc r : List String),
      orderLoop fuel d acc = .ok r →
      (keys d).Nodup →
      (∀ k ∈ keys d, k ∉ acc) →
      (∃ u, r = acc ++ u) ∧
      (∀ kv ∈ d, kv.1 ∈ r ∧ acc.length ≤ r.indexOf kv.1) ∧
      (∀ kv ∈ d, ∀ s : String, some s ∈ kv.2 →
        s ∈ r ∧ r.indexOf s < r.indexOf kv.1) := by
  intro fuel
  induction fuel with
  | zero =>
    intro d acc r h
    simp [orderLoop] at h
  | succ n ih =>
    intro d acc r h hnd hdisj
    unfold orderLoop at h
    by_cases hd : d.isEmpty = true
    · simp only [hd, if_pos, ResolveRes.ok.injEq] at h
      have hdnil : d = [] := List.isEmpty_iff.mp hd
      subst hdnil
      refine ⟨⟨[], by rw [h, List.append_nil]⟩, ?_, ?_⟩
      · intro kv hkv; exact absurd hkv (List.not_mem_nil kv)
      · intro kv hkv; exact absurd hkv (List.not_mem_nil kv)
    · rw [Bool.not_eq_true] at hd
      by_cases ht : (ready d).isEmpty = true
      · simp [hd, ht] at h
      · rw [Bool.not_eq_true] at ht
        simp only [hd, ht, Bool.false_eq_true, if_neg, not_false_iff] at h
        -- the recursive call
        have hnd' := nodup_keys_cleanup d (ready d) hnd
        have hdisj' : ∀ k ∈ keys (cleanup d (ready d)),
            k ∉ acc ++ (ready d).filterMap id := by
          intro k hk
          obtain ⟨kv', hkv', hk1⟩ := (mem_keys k _).mp hk
          obtain ⟨kv, hkv, hne, heq⟩ := (mem_cleanup kv' d (ready d)).mp hkv'
          have hkeq : kv.1 = k := by rw [heq] at hk1; exact hk1
          have hkin : k ∈ keys d := (mem_keys k d).mpr ⟨kv, hkv, hkeq⟩
          rw [List.mem_append]
          rintro (hacc | hemit)
          · exact hdisj k hkin hacc
          · have hst : some k ∈ ready d := (mem_filterMap_id k _).mp hemit
            unfold ready at hst
            rcases List.mem_append.mp hst with hv | he
            · exact ((mem_valsNotKeys (some k) d).mp hv).2
                (List.mem_map.mpr ⟨k, hkin, rfl⟩)
            · obtain ⟨k', hk', hke⟩ := List.mem_map.mp he
              have hk'k : k' = k := by injection hke
              obtain ⟨kv₀, hkv₀, hkv₀1, hkv₀2⟩ :=
                (mem_emptyKeys k' d).mp hk'
              have : kv = kv₀ := uniq_entry d hnd kv kv₀ hkv hkv₀
                (by rw [hkeq, hkv₀1, hk'k])
              exact hne (this ▸ hkv₀2)
        obtain ⟨⟨u', hr'⟩, h2', h3'⟩ :=
          ih (cleanup d (ready d)) (acc ++ (ready d).filterMap id) r h
            hnd' hdisj'
        refine ⟨⟨(ready d).filterMap id ++ u', by
          rw [hr', List.append_assoc]⟩, ?_, ?_⟩
        · -- every key of d reaches r at index ≥ acc.length
          intro kv hkv
          by_cases hcv : kv.2 = []
          · have hke : kv.1 ∈ emptyKeys d :=
              (mem_emptyKeys kv.1 d).mpr ⟨kv, hkv, rfl, hcv⟩
            have hst : some kv.1 ∈ ready d :=
              List.mem_append_right _ (List.mem_map.mpr ⟨kv.1, hke, rfl⟩)
            have hemit : kv.1 ∈ (ready d).filterMap id :=
              (mem_filterMap_id kv.1 _).mpr hst
            have hmem : kv.1 ∈ r := by
              rw [hr', List.append_assoc]
              exact List.mem_append_right _ (List.mem_append_left _ hemit)
            refine ⟨hmem, ?_⟩
            have hnacc : kv.1 ∉ acc :=
              hdisj kv.1 ((mem_keys kv.1 d).mpr ⟨kv, hkv, rfl⟩)
            have : r = acc ++ ((ready d).filterMap id ++ u') := by
              rw [hr', List.append_assoc]
            rw [this]
            exact indexOf_ge_of_not_mem_left kv.1 acc _ hnacc
          · have hkv' : (kv.1, kv.2.filter (fun v => decide (v ∉ ready d)))
                ∈ cleanup d (ready d) :=
              (mem_cleanup _ d (ready d)).mpr ⟨kv, hkv, hcv, rfl⟩
            obtain ⟨hmem, hge⟩ := h2' _ hkv'
            refine ⟨hmem, le_trans ?_ hge⟩
            rw [List.length_append]
            omega
        · -- every dependency name of an entry of d sits strictly before its key
          intro kv hkv s hs
          have hcv : kv.2 ≠ [] := fun hc => List.not_mem_nil _ (hc ▸ hs)
          have hkv' : (kv.1, kv.2.filter (fun v => decide (v ∉ ready d)))
              ∈ cleanup d (ready d) :=
            (mem_cleanup _ d (ready d)).mpr ⟨kv, hkv, hcv, rfl⟩
          by_cases hst : some s ∈ ready d
          · have hemit : s ∈ (ready d).filterMap id :=
              (mem_filterMap_id s _).mpr hst
            have hsacc : s ∈ acc ++ (ready d).filterMap id :=
              List.mem_append_right _ hemit
            have hsr : s ∈ r := by
              rw [hr']; exact List.mem_append_left _ hsacc
            refine ⟨hsr, ?_⟩
            have hlt : r.indexOf s < (acc ++ (ready d).filterMap id).length := by
              rw [hr']
              exact indexOf_lt_of_mem_left s _ u' hsacc
            have hge : (acc ++ (ready d).filterMap id).length ≤ r.indexOf kv.1 :=
              (h2' _ hkv').2
            omega
          · have hs' : some s ∈ kv.2.filter (fun v => decide (v ∉ ready d)) :=
              List.mem_filter.mpr ⟨hs, by rw [decide_eq_true_iff]; exact hst⟩
            exact h3' _ hkv' s hs'

/-! ### Cyclic graphs make the loop fail -/

/-- Holds when `a` has a declared dependency edge to `b` in the graph. -/
def edgeB (g : Graph) (a b : String) : Bool :=
  g.any (fun kv => kv.1 == a && kv.2.any (fun v => v == some b))

def chainB (g : Graph) (x : String) : List String → Bool
  | [] => true
  | y :: rest => edgeB g x y && chainB g y rest

/-- Holds when `c` lists the vertices of a dependency cycle: consecutive elements are
edges, wrapping around from the last element back to the first. -/
def IsCycle (g : Graph) (c : List String) : Prop :=
  match c with
  | [] => False
  | k :: ks => chainB g k (ks ++ [k]) = true

/-- A nonempty set of keys each of which depends on another member of the
set; such a set can never be emptied by the loop. -/
def Stuck (g : Graph) (S : List String) : Prop :=
  S ≠ [] ∧ ∀ a ∈ S, ∃ kv, kv ∈ g ∧ kv.1 = a ∧ ∃ b ∈ S, some b ∈ kv.2

theorem edgeB_iff (g : Graph) (a b : String) :
    edgeB g a b = true ↔ ∃ kv, kv ∈ g ∧ kv.1 = a ∧ some b ∈ kv.2 := by
  unfold edgeB
  rw [List.any_eq_true]
  constructor
  · rintro ⟨kv, hkv, hp⟩
    rw [Bool.and_eq_true] at hp
    obtain ⟨v, hv, hveq⟩ := List.any_eq_true.mp hp.2
    exact ⟨kv, hkv, beq_iff_eq.mp hp.1, (beq_iff_eq.mp hveq) ▸ hv⟩
  · rintro ⟨kv, hkv, hfst, hdep⟩
    refine ⟨kv, hkv, ?_⟩
    rw [Bool.and_eq_true]
    exact ⟨beq_iff_eq.mpr hfst, List.any_eq_true.mpr ⟨some b, hdep, by simp⟩⟩

theorem chainB_sources (g : Graph) : ∀ (l : List String) (x : String),
    l ≠ [] → chainB g x l = true →
    ∀ a, (a = x ∨ a ∈ l.dropLast) → ∃ b ∈ l, edgeB g a b = true := by
  intro l
  induction l with
  | nil => intro x h; exact absurd rfl h
  | cons y rest ih =>
    intro x _ hch a hsrc
    have hch' : edgeB g x y = true ∧ chainB g y rest = true := by
      rw [← Bool.and_eq_true]; exact hch
    rcases hsrc with hax | hmem
    · exact ⟨y, List.mem_cons_self y rest, hax ▸ hch'.1⟩
    · cases hrest : rest with
      | nil =>
        rw [hrest] at hmem
        simp at hmem
      | cons z rest' =>
        subst hrest
        rw [List.dropLast_cons₂] at hmem
        rcases List.mem_cons.mp hmem with hay | hmem'
        · obtain ⟨b, hb, he⟩ := ih y (List.cons_ne_nil z rest') hch'.2 a
            (Or.inl hay)
          exact ⟨b, List.mem_cons_of_mem y hb, he⟩
        · obtain ⟨b, hb, he⟩ := ih y (List.cons_ne_nil z rest') hch'.2 a
            (Or.inr hmem')
          exact ⟨b, List.mem_cons_of_mem y hb, he⟩

theorem isCycle_stuck (g : Graph) (c : List String) (h : IsCycle g c) :
    Stuck g c := by
  cases c with
  | nil => exact absurd h (by unfold IsCycle; exact id)
  | cons k ks =>
    have hch : chainB g k (ks ++ [k]) = true := h
    refine ⟨List.cons_ne_nil k ks, ?_⟩
    intro a ha
    have hsrc : a = k ∨ a ∈ (ks ++ [k]).dropLast := by
      rcases List.mem_cons.mp ha with hak | hmem
      · exact Or.inl hak
      · exact Or.inr (by rw [List.dropLast_concat]; exact hmem)
    obtain ⟨b, hb, he⟩ := chainB_sources g (ks ++ [k]) k (by simp) hch a hsrc
    obtain ⟨kv, hkv, hfst, hdep⟩ := (edgeB_iff g a b).mp he
    refine ⟨kv, hkv, hfst, b, ?_, hdep⟩
    rcases List.mem_append.mp hb with hbs | hbk
    · exact List.mem_cons_of_mem k hbs
    · rw [List.mem_singleton.mp hbk]
      exact List.mem_cons_self k ks

/-- Every member of a stuck set is a key of the graph. -/
theorem stuck_mem_keys (d : Graph) (S : List String) (h : Stuck d S) :
    ∀ a ∈ S, a ∈ keys d := by
  intro a ha
  obtain ⟨kv, hkv, hfst, _⟩ := h.2 a ha
  exact (mem_keys a d).mpr ⟨kv, hkv, hfst⟩

/-- A stuck set survives one cleanup round untouched. -/
theorem stuck_cleanup (d : Graph) (S : List String)
    (hnd : (keys d).Nodup) (h : Stuck d S) :
    Stuck (cleanup d (ready d)) S := by
  refine ⟨h.1, ?_⟩
  intro a ha
  obtain ⟨kv, hkv, hfst, b, hb, hbdep⟩ := h.2 a ha
  have hne : kv.2 ≠ [] := fun hc => List.not_mem_nil _ (hc ▸ hbdep)
  have hbnott : some b ∉ ready d := by
    intro hbt
    unfold ready at hbt
    rcases List.mem_append.mp hbt with hv | he
    · exact ((mem_valsNotKeys (some b) d).mp hv).2
        (List.mem_map.mpr ⟨b, stuck_mem_keys d S h b hb, rfl⟩)
    · obtain ⟨b', hb', hbe⟩ := List.mem_map.mp he
      have hb'b : b' = b := by injection hbe
      obtain ⟨kv₀, hkv₀, hkv₀1, hkv₀2⟩ := (mem_emptyKeys b' d).mp hb'
      obtain ⟨kvb, hkvb, hkvb1, b₂, _, hb₂dep⟩ := h.2 b hb
      have : kvb = kv₀ := uniq_entry d hnd kvb kv₀ hkvb hkv₀
        (by rw [hkvb1, hkv₀1, hb'b])
      exact List.not_mem_nil _ (hkv₀2 ▸ this ▸ hb₂dep)
  refine ⟨(kv.1, kv.2.filter (fun v => decide (v ∉ ready d))),
    (mem_cleanup _ d (ready d)).mpr ⟨kv, hkv, hne, rfl⟩, hfst, b, hb, ?_⟩
  exact List.mem_filter.mpr ⟨hbdep, by rw [decide_eq_true_iff]; exact hbnott⟩

theorem stuck_no_ok : ∀ (fuel : Nat) (d : Graph) (acc S : List String)
    (r : List String), (keys d).Nodup → Stuck d S →
    orderLoop fuel d acc ≠ .ok r := by
  intro fuel
  induction fuel with
  | zero => intro d acc S r _ _; simp [orderLoop]
  | succ n ih =>
    intro d acc S r hnd hst
    unfold orderLoop
    by_cases hd : d.isEmpty = true
    · exfalso
      obtain ⟨a, ha⟩ := List.exists_mem_of_ne_nil S hst.1
      obtain ⟨kv, hkv, _⟩ := hst.2 a ha
      rw [List.isEmpty_iff.mp hd] at hkv
      exact List.not_mem_nil kv hkv
    · rw [Bool.not_eq_true] at hd
      by_cases ht : (ready d).isEmpty = true
      · simp [hd, ht]
      · rw [Bool.not_eq_true] at ht
        simp only [hd, ht, Bool.false_eq_true, if_neg, not_false_iff]
        exact ih (cleanup d (ready d)) (acc ++ (ready d).filterMap id) S r
          (nodup_keys_cleanup d (ready d) hnd) (stuck_cleanup d S hnd hst)

/-! ### Cycle-free graphs always resolve successfully -/

/-- If nothing is ready while the graph is nonempty, the whole key set is
stuck: every entry is nonempty and every referenced name is a key. -/
theorem stuck_of_ready_nil (d : Graph) (hd : d ≠ []) (hr : ready d = []) :
    Stuck d (keys d) := by
  unfold ready at hr
  obtain ⟨hv, he⟩ := List.append_eq_nil.mp hr
  have hek : emptyKeys d = [] := List.map_eq_nil_iff.mp he
  refine ⟨fun hc => hd (List.map_eq_nil_iff.mp hc), ?_⟩
  intro a ha
  obtain ⟨kv, hkv, hfst⟩ := (mem_keys a d).mp ha
  have hne : kv.2 ≠ [] := by
    intro hc
    have : kv.1 ∈ emptyKeys d := (mem_emptyKeys kv.1 d).mpr ⟨kv, hkv, rfl, hc⟩
    rw [hek] at this
    exact List.not_mem_nil kv.1 this
  obtain ⟨x, hx⟩ := List.exists_mem_of_ne_nil kv.2 hne
  have hxk : x ∈ (keys d).map some := by
    by_contra hxn
    have : x ∈ valsNotKeys d :=
      (mem_valsNotKeys x d).mpr ⟨⟨kv, hkv, hx⟩, hxn⟩
    rw [hv] at this
    exact List.not_mem_nil x this
  obtain ⟨b, hbk, hbe⟩ := List.mem_map.mp hxk
  exact ⟨kv, hkv, hfst, b, hbk, hbe ▸ hx⟩

/-- A stuck set of the cleaned-up graph was already stuck beforehand:
cleanup only removes entries and dependency items. -/
theorem stuck_lift (d : Graph) (t : List Dep) (S : List String)
    (h : Stuck (cleanup d t) S) : Stuck d S := by
  refine ⟨h.1, fun a ha => ?_⟩
  obtain ⟨kv', hkv', hfst, b, hb, hbdep⟩ := h.2 a ha
  obtain ⟨kv, hkv, hne, heq⟩ := (mem_cleanup kv' d t).mp hkv'
  refine ⟨kv, hkv, ?_, b, hb, ?_⟩
  · rw [heq] at hfst
    exact hfst
  · rw [heq] at hbdep
    exact (List.mem_filter.mp hbdep).1

theorem failed_stuck : ∀ (fuel : Nat) (d : Graph) (acc : List String),
    orderLoop fuel d acc = .failed → ∃ S, Stuck d S := by
  intro fuel
  induction fuel with
  | zero => intro d acc h; simp [orderLoop] at h
  | succ n ih =>
    intro d acc h
    unfold orderLoop at h
    by_cases hd : d.isEmpty = true
    · simp [hd] at h
    · rw [Bool.not_eq_true] at hd
      by_cases ht : (ready d).isEmpty = true
      · exact ⟨keys d, stuck_of_ready_nil d (List.isEmpty_eq_false.mp hd)
          (List.isEmpty_iff.mp ht)⟩
      · rw [Bool.not_eq_true] at ht
        simp only [hd, ht, Bool.false_eq_true, if_neg, not_false_iff] at h
        obtain ⟨S, hS⟩ := ih _ _ h
        exact ⟨S, stuck_lift d (ready d) S hS⟩

/-- A walk whose every step is an edge yields a chain in `chainB` form. -/
theorem chainB_walk (g : Graph) : ∀ (len : Nat) (w : Nat → String),
    (∀ n, edgeB g (w n) (w (n + 1)) = true) →
    chainB g (w 0)
      ((List.range len).map (fun k => w (k + 1)) ++ [w (len + 1)]) = true := by
  intro len
  induction len with
  | zero =>
    intro w hw
    simp [chainB, hw 0]
  | succ n ih =>
    intro w hw
    rw [List.range_succ_eq_map]
    simp only [List.map_cons, List.map_map, List.cons_append]
    have hstep := ih (fun k => w (k + 1)) (fun k => hw (k + 1))
    simp only [chainB, Bool.and_eq_true]
    exact ⟨hw 0, hstep⟩

/-- From a stuck set a genuine dependency cycle can be extracted: follow
successors inside the set; by pigeonhole the walk repeats, and the repeated
stretch is a cycle. -/
theorem stuck_to_cycle (g : Graph) (S : List String) (h : Stuck g S) :
    ∃ c, IsCycle g c := by
  classical
  obtain ⟨hne, hmem⟩ := h
  have hsucc : ∀ a, a ∈ S → ∃ b, b ∈ S ∧ edgeB g a b = true := by
    intro a ha
    obtain ⟨kv, hkv, hfst, b, hb, hdep⟩ := hmem a ha
    exact ⟨b, hb, (edgeB_iff g a b).mpr ⟨kv, hkv, hfst, hdep⟩⟩
  obtain ⟨a₀, ha₀⟩ := List.exists_mem_of_ne_nil S hne
  let f : {a // a ∈ S} → {a // a ∈ S} := fun a =>
    ⟨(hsucc a.1 a.2).choose, (hsucc a.1 a.2).choose_spec.1⟩
  have hedgef : ∀ a : {a // a ∈ S}, edgeB g a.1 (f a).1 = true :=
    fun a => (hsucc a.1 a.2).choose_spec.2
  let walk : Nat → {a // a ∈ S} := fun n => f^[n] ⟨a₀, ha₀⟩
  have hwalkstep : ∀ n, walk (n + 1) = f (walk n) :=
    fun n => Function.iterate_succ_apply' f n ⟨a₀, ha₀⟩
  have hedge : ∀ n, edgeB g (walk n).1 (walk (n + 1)).1 = true := by
    intro n
    rw [hwalkstep n]
    exact hedgef (walk n)
  have build : ∀ p q : Nat, p < q → walk p = walk q → ∃ c, IsCycle g c := by
    intro p q hpq hw
    refine ⟨(walk p).1
      :: (List.range (q - p - 1)).map (fun k => (walk (p + (k + 1))).1), ?_⟩
    show chainB g (walk p).1
      ((List.range (q - p - 1)).map (fun k => (walk (p + (k + 1))).1)
        ++ [(walk p).1]) = true
    have hchain := chainB_walk g (q - p - 1) (fun n => (walk (p + n)).1)
      (fun n => hedge (p + n))
    simp only [] at hchain
    have hq : p + (q - p - 1 + 1) = q := by omega
    rw [hq] at hchain
    rw [← hw] at hchain
    exact hchain
  obtain ⟨i, j, hij, hfij⟩ := Fintype.exists_ne_map_eq_of_card_lt
    (fun n : Fin (S.length + 1) =>
      (⟨S.indexOf (walk n.1).1,
        List.indexOf_lt_length.mpr (walk n.1).2⟩ : Fin S.length))
    (by simp)
  have hweq : walk i.1 = walk j.1 := by
    apply Subtype.ext
    have h2 := List.indexOf_get (List.indexOf_lt_length.mpr (walk i.1).2)
    have h3 := List.indexOf_get (List.indexOf_lt_length.mpr (walk j.1).2)
    rw [← h2, ← h3]
    exact congrArg S.get hfij
  have hij' : i.1 ≠ j.1 := fun hc => hij (Fin.ext hc)
  rcases Nat.lt_or_ge i.1 j.1 with hlt | hge
  · exact build i.1 j.1 hlt hweq
  · exact build j.1 i.1 (by omega) hweq.symm

/-- A graph containing no cycle always resolves to some ordering. -/
theorem acyclic_resolve_ok (g : Graph)
    (hnc : ∀ c : List String, ¬IsCycle g c) : ∃ r, resolve g = .ok r := by
  cases h : resolve g with
  | ok r => exact ⟨r, rfl⟩
  | failed =>
    exfalso
    obtain ⟨S, hS⟩ := failed_stuck (depSize g + 1) g [] h
    obtain ⟨c, hc⟩ := stuck_to_cycle g S hS
    exact hnc c hc
  | out => exact absurd h (orderLoop_ne_out (depSize g + 1) g [] (by omega))

/-! ## Claim theorems for the resolver -/

/-- C1: every acyclic dependency graph (with distinct keys, as a Python
dict guarantees) resolves to an output ordering in which every layer
appears strictly after each of its declared non-sentinel dependencies;
concretely, the graph `{A: [], B: ["A"], C: ["A","B"]}` resolves to exactly
`[A, B, C]`. -/
theorem resolve_orders_layers_after_deps (g : Graph)
    (hnd : (keys g).Nodup) (hnc : ∀ c : List String, ¬IsCycle g c) :
    (∃ r, resolve g = .ok r ∧
      ∀ kv ∈ g, ∀ s : String, some s ∈ kv.2 →
        s ∈ r ∧ kv.1 ∈ r ∧ r.indexOf s < r.indexOf kv.1)
    ∧ resolve [("A", []), ("B", [some "A"]), ("C", [some "A", some "B"])]
        = .ok ["A", "B", "C"] := by
  constructor
  · obtain ⟨r, hr⟩ := acyclic_resolve_ok g hnc
    refine ⟨r, hr, ?_⟩
    intro kv hkv s hs
    obtain ⟨_, h2, h3⟩ :=
      orderLoop_invariant (depSize g + 1) g [] r hr hnd (by simp)
    obtain ⟨hsr, hlt⟩ := h3 kv hkv s hs
    exact ⟨hsr, (h2 kv hkv).1, hlt⟩
  · decide

theorem resolve_orders_layers_after_deps_witness :
    resolve [("A", []), ("B", [some "A"]), ("C", [some "A", some "B"])]
      = .ok ["A", "B", "C"] := by
  have hnc : ∀ c : List String,
      ¬IsCycle [("A", []), ("B", [some "A"]), ("C", [some "A", some "B"])] c := by
    intro c hc
    exact stuck_no_ok
      (depSize [("A", []), ("B", [some "A"]), ("C", [some "A", some "B"])] + 1)
      [("A", []), ("B", [some "A"]), ("C", [some "A", some "B"])] [] c
      ["A", "B", "C"] (by decide)
      (isCycle_stuck [("A", []), ("B", [some "A"]), ("C", [some "A", some "B"])]
        c hc)
      (by decide)
  exact (resolve_orders_layers_after_deps
    [("A", []), ("B", [some "A"]), ("C", [some "A", some "B"])]
    (by decide) hnc).2

/-- C2: a dependency graph containing a cycle makes resolution fail fatally
(`sys.exit(1)` after printing "Dependency resolution failed.", modelled as
the result `failed`): no ordering is produced or returned to the caller. -/
theorem resolve_cycle_fails (g : Graph) (c : List String)
    (hc : IsCycle g c) (hnd : (keys g).Nodup) : resolve g = .failed := by
  have hok : ∀ r, resolve g ≠ .ok r := fun r =>
    stuck_no_ok (depSize g + 1) g [] c r hnd (isCycle_stuck g c hc)
  have hout : resolve g ≠ .out :=
    orderLoop_ne_out (depSize g + 1) g [] (by omega)
  cases h : resolve g with
  | ok r => exact absurd h (hok r)
  | failed => rfl
  | out => exact absurd h hout

theorem resolve_cycle_fails_witness :
    resolve [("A", [some "B"]), ("B", [some "A"])] = .failed :=
  resolve_cycle_fails [("A", [some "B"]), ("B", [some "A"])] ["A", "B"]
    (by unfold IsCycle; decide) (by decide)

/-- C4 counterexample: the graph `{A: ["X"]}` references `X`, which is never
a key, yet resolution succeeds — and even places `X` in the output — instead
of failing as the claim demands. -/
theorem resolve_unknown_dep_succeeds_cex :
    resolve [("A", [some "X"])] = .ok ["X", "A"]
      ∧ ("X" : String) ∉ keys [("A", [some "X"])] := by
  constructor
  · decide
  · decide

/-- C4 amended: a non-sentinel name referenced as a dependency but never
appearing as a key does not make resolution fail; it is treated as trivially
satisfied, emitted into the ordering before every layer that depends on it,
and a successful resolve therefore does not imply that every referenced
dependency is a key. -/
theorem resolve_unknown_dep_emitted (g : Graph) (r : List String)
    (hnd : (keys g).Nodup) (h : resolve g = .ok r) :
    (∀ kv ∈ g, ∀ s : String, some s ∈ kv.2 → s ∉ keys g →
      s ∈ r ∧ r.indexOf s < r.indexOf kv.1)
    ∧ resolve [("A", [some "X"])] = .ok ["X", "A"] := by
  constructor
  · intro kv hkv s hs _
    obtain ⟨_, _, h3⟩ :=
      orderLoop_invariant (depSize g + 1) g [] r h hnd (by simp)
    exact h3 kv hkv s hs
  · decide

theorem resolve_unknown_dep_emitted_witness :
    ("X" : String) ∈ ["X", "A"] ∧
      (["X", "A"] : List String).indexOf "X"
        < (["X", "A"] : List String).indexOf "A" := by
  have h := (resolve_unknown_dep_emitted [("A", [some "X"])] ["X", "A"]
      (by decide) (by decide)).1 ("A", [some "X"]) (by decide) "X"
      (by decide) (by decide)
  exact ⟨h.1, h.2⟩

/-! ## Layer and mode registration (`add_layer`, `add_mode`) -/

/-- Model of `DevStack.add_layer`: record the declared dependency names, or the
`(None,)` sentinel when the layer declares no `depends_on`. -/
def add_layer (g : Graph) (name : String)
    (dependsOn : Option (List String)) : Graph :=
  match dependsOn with
  | some deps => setA g name (deps.map some)
  | none => setA g name [none]

/-- C8: a layer registered without a dependency declaration is recorded with
the "no dependency" sentinel, and the graph holding only that layer resolves
with the layer at position 0; the output `["A"]` contains no sentinel entry
(the loop appends only non-`None` names, modelled by `filterMap id`). -/
theorem add_layer_sentinel_resolves_first :
    add_layer [] "A" none = [("A", [(none : Dep)])]
      ∧ resolve [("A", [(none : Dep)])] = .ok ["A"]
      ∧ (ready [("A", [(none : Dep)])]).filterMap id = [] := by
  refine ⟨rfl, by decide, by decide⟩

/-! ## ConfigStore (`load_config` / `update_config_file`)

The effect of the JSON file on disk is made explicit: a store maps the file
path `.<stack_name>.json` to the saved pair of toggle and mode maps (the
JSON round-trip on string-to-bool dictionaries is lossless). -/

structure ConfigData where
  stack_toggle_status : List (String × Bool)
  stack_mode_status : List (String × Bool)
deriving DecidableEq

abbrev FileStore := List (String × ConfigData)

def cfgPath (name : String) : String := "." ++ name ++ ".json"

/-- Model of `DevStack.update_config_file`: overwrite `.<name>.json` wholesale. -/
def update_config_file (fs : FileStore) (name : String)
    (ts ms : List (String × Bool)) : FileStore :=
  setA fs (cfgPath name) ⟨ts, ms⟩

/-- Model of `DevStack.load_config`: read `.<name>.json`; `none` models the
`FileNotFoundError` branch that returns `False` after a warning. -/
def load_config (fs : FileStore) (name : String) : Option ConfigData :=
  getA fs (cfgPath name)

/-- C6: saving and then loading for the same stack name returns exactly the
toggle and mode maps that were saved. -/
theorem save_load_round_trip (fs : FileStore) (name : String)
    (ts ms : List (String × Bool)) :
    load_config (update_config_file fs name ts ms) name = some ⟨ts, ms⟩ :=
  getA_setA_self fs (cfgPath name) ⟨ts, ms⟩

/-! ## Defaults when no config file exists (C7) -/

/-- Model of `DevStack.add_mode` applied to a list of declarations `(name, default)`:
each registration stores the mode's declared default enablement. -/
def registerModes (decls : List (String × Bool)) : List (String × Bool) :=
  decls.foldl (fun ms nd => setA ms nd.1 nd.2) []

/-- The configuration-loading step at the top of `prompt_toggles`: a present
file replaces both maps wholesale; an absent file leaves the mode map alone
and sets every registered layer's toggle to `False`. -/
def load_defaults (fs : FileStore) (name : String)
    (registeredLayers : List String) (ts ms : List (String × Bool)) :
    List (String × Bool) × List (String × Bool) :=
  match load_config fs name with
  | some cfg => (cfg.stack_toggle_status, cfg.stack_mode_status)
  | none => (registeredLayers.foldl (fun m l => setA m l false) ts, ms)

theorem getA_foldl_setA_not_mem {α : Type} (v : α) :
    ∀ (ks : List String) (m : List (String × α)) (k : String), k ∉ ks →
      getA (ks.foldl (fun m x => setA m x v) m) k = getA m k := by
  intro ks
  induction ks with
  | nil => intro m k _; rfl
  | cons a ks ih =>
    intro m k hk
    rw [List.foldl_cons, ih (setA m a v) k (fun h => hk (List.mem_cons_of_mem a h)),
      getA_setA_ne m a k v (fun h => hk (h ▸ List.mem_cons_self a ks))]

theorem getA_foldl_setA_mem {α : Type} (v : α) :
    ∀ (ks : List String) (m : List (String × α)) (k : String), k ∈ ks →
      getA (ks.foldl (fun m x => setA m x v) m) k = some v := by
  intro ks
  induction ks with
  | nil => intro m k hk; exact absurd hk (List.not_mem_nil k)
  | cons a ks ih =>
    intro m k hk
    rw [List.foldl_cons]
    by_cases hks : k ∈ ks
    · exact ih (setA m a v) k hks
    · have hka : k = a := by
        rcases List.mem_cons.mp hk with h | h
        · exact h
        · exact absurd h hks
      rw [getA_foldl_setA_not_mem v ks (setA m a v) k hks, hka, getA_setA_self]

theorem getA_registerModes_frame :
    ∀ (decls : List (String × Bool)) (m : List (String × Bool)) (k : String),
      k ∉ decls.map Prod.fst →
      getA (decls.foldl (fun ms nd => setA ms nd.1 nd.2) m) k = getA m k := by
  intro decls
  induction decls with
  | nil => intro m k _; rfl
  | cons d ds ih =>
    intro m k hk
    rw [List.foldl_cons, ih (setA m d.1 d.2) k
      (fun h => hk (List.mem_cons_of_mem d.1 h)),
      getA_setA_ne m d.1 k d.2
        (fun h => hk (h ▸ List.mem_cons_self d.1 (ds.map Prod.fst)))]

theorem getA_registerModes_mem :
    ∀ (decls : List (String × Bool)) (m : List (String × Bool))
      (nd : String × Bool), (decls.map Prod.fst).Nodup → nd ∈ decls →
      getA (decls.foldl (fun ms nd => setA ms nd.1 nd.2) m) nd.1 = some nd.2 := by
  intro decls
  induction decls with
  | nil => intro m nd _ h; exact absurd h (List.not_mem_nil nd)
  | cons d ds ih =>
    intro m nd hnd hmem
    have hnd' : d.1 ∉ ds.map Prod.fst ∧ (ds.map Prod.fst).Nodup := by
      rw [List.map_cons, List.nodup_cons] at hnd
      exact hnd
    rw [List.foldl_cons]
    rcases List.mem_cons.mp hmem with he | hds
    · subst he
      rw [getA_registerModes_frame ds (setA m nd.1 nd.2) nd.1 hnd'.1,
        getA_setA_self]
    · exact ih (setA m d.1 d.2) nd hnd'.2 hds

/-- C7: when no persisted config file exists for the stack name, loading
yields `none` (not an error) and the run continues with defaults: every
registered layer's toggle becomes `false` and every registered mode keeps
the default declared at its registration. -/
theorem load_missing_uses_defaults (fs : FileStore) (name : String)
    (layers : List String) (decls : List (String × Bool))
    (ts : List (String × Bool))
    (hfs : load_config fs name = none)
    (hnd : (decls.map Prod.fst).Nodup) :
    (∀ l ∈ layers,
      getA (load_defaults fs name layers ts (registerModes decls)).1 l
        = some false)
    ∧ (load_defaults fs name layers ts (registerModes decls)).2
        = registerModes decls
    ∧ (∀ nd ∈ decls,
        getA (load_defaults fs name layers ts (registerModes decls)).2 nd.1
          = some nd.2) := by
  unfold load_defaults
  rw [hfs]
  refine ⟨?_, rfl, ?_⟩
  · intro l hl
    exact getA_foldl_setA_mem false layers ts l hl
  · intro nd hnd'
    exact getA_registerModes_mem decls [] nd hnd hnd'

theorem load_missing_uses_defaults_witness :
    getA (load_defaults [] "demo" ["L1"] []
        (registerModes [("M1", true)])).1 "L1" = some false
    ∧ getA (load_defaults [] "demo" ["L1"] []
        (registerModes [("M1", true)])).2 "M1" = some true := by
  have h := load_missing_uses_defaults [] "demo" ["L1"] [("M1", true)] []
    (by decide) (by decide)
  exact ⟨h.1 "L1" (by decide), h.2.2 ("M1", true) (by decide)⟩

/-! ## StackState (`update_stack_status`)

`stack_status` is a dict from layer name to a field dict (`symbol`, `key`,
`status`); `stack` is the table's row list whose row 0 is the header and
whose column 1 holds the layer name. Python f-string centering with spec ^w pads
with spaces, extra space on the right, and leaves strings of width `≥ w`
unchanged. -/

abbrev StatusEntry := List (String × String)

abbrev Row := List String

def padCenter (s : String) (w : Nat) : String :=
  if w ≤ s.length then s
  else
    let m := w - s.length
    String.mk (List.replicate (m / 2) ' ') ++ s
      ++ String.mk (List.replicate (m - m / 2) ' ')

structure StackState where
  stack_mode_status : List (String × Bool)
  stack_toggle_status : List (String × Bool)
  stack_status : List (String × StatusEntry)
  stack : List Row
deriving DecidableEq

/-- Model of `self.stack_status[layer][field] = v` for an existing layer key. -/
def setEntryField (ss : List (String × StatusEntry))
    (layer field v : String) : List (String × StatusEntry) :=
  ss.map (fun kv => if kv.1 == layer then (kv.1, setA kv.2 field v) else kv)

/-- The three mutations of `self.stack_status` at the top of
`update_stack_status`: ensure a (possibly empty) field dict exists for the
layer, then overwrite the provided fields with centered text. -/
def statusDictAfter (ss : List (String × StatusEntry)) (layer : String)
    (symbol status : Option String) : List (String × StatusEntry) :=
  let ss0 := if ss.any (fun kv => kv.1 == layer) then ss
    else ss ++ [(layer, [])]
  let ss1 := match symbol with
    | some s => setEntryField ss0 layer "symbol" (padCenter s 3)
    | none => ss0
  match status with
  | some s => setEntryField ss1 layer "status" (padCenter s 50)
  | none => ss1

/-- The `for idx in range(1, len(self.stack))` loop: rewrite, in place,
every row past the header whose name column (index 1) matches the layer. -/
def rewriteRows (entry : StatusEntry) (layer : String)
    (additional : List String) : List Row → List Row
  | [] => []
  | h :: rows => h :: rows.map (fun row =>
      if row.getD 1 "" == layer then
        [(getA entry "symbol").getD "", layer, (getA entry "status").getD ""]
          ++ (if 1 ≤ additional.length then additional else row.drop 3)
      else row)

/-- Model of `DevStack.update_stack_status`. (Where the Python code would raise
`KeyError` reading a never-set field, the model substitutes `""`.) -/
def update_stack_status (st : StackState) (layer : String)
    (symbol status : Option String) (additional : List String) : StackState :=
  { st with
    stack_status := statusDictAfter st.stack_status layer symbol status,
    stack := rewriteRows
      ((getA (statusDictAfter st.stack_status layer symbol status) layer).getD [])
      layer additional st.stack }

theorem getA_append_singleton_ne {α : Type} (m : List (String × α))
    (layer k : String) (x : α) (h : k ≠ layer) :
    getA (m ++ [(layer, x)]) k = getA m k := by
  unfold getA
  rw [List.find?_append]
  have hone : List.find? (fun kv => kv.1 == k) [(layer, x)] = none := by
    simp [List.find?, beq_false_of_ne (fun he : layer = k => h he.symm)]
  cases hfind : m.find? (fun kv => kv.1 == k) with
  | some y => simp [hfind]
  | none => simp [hfind, hone]

theorem getA_setEntryField_ne (ss : List (String × StatusEntry))
    (layer field v k : String) (h : k ≠ layer) :
    getA (setEntryField ss layer field v) k = getA ss k := by
  unfold setEntryField getA
  induction ss with
  | nil => rfl
  | cons kv rest ih =>
    by_cases hl : kv.1 = layer
    · have h1 : (kv.1 == layer) = true := beq_iff_eq.mpr hl
      have h2 : (kv.1 == k) = false := by
        rw [hl]; exact beq_false_of_ne (fun he => h he.symm)
      simp only [List.map_cons, h1, if_pos, List.find?, h2]
      exact ih
    · have h1 : (kv.1 == layer) = false := beq_false_of_ne hl
      simp only [List.map_cons, h1, Bool.false_eq_true, if_neg, not_false_iff,
        List.find?]
      cases hk : (kv.1 == k) with
      | true => rfl
      | false => exact ih

theorem rewriteRows_names (entry : StatusEntry) (layer : String)
    (additional : List String) (l : List Row) :
    (rewriteRows entry layer additional l).map (fun row => row.getD 1 "")
      = l.map (fun row => row.getD 1 "") := by
  cases l with
  | nil => rfl
  | cons h rows =>
    simp only [rewriteRows, List.map_cons, List.map_map]
    congr 1
    apply List.map_congr_left
    intro row _
    by_cases hc : (row.getD 1 "" == layer) = true
    · simp only [Function.comp_apply, hc, if_pos]
      have hname : row.getD 1 "" = layer := beq_iff_eq.mp hc
      rw [← hname]
      rfl
    · simp only [Function.comp_apply, hc]
      rw [if_neg (by simp [hc])]

theorem rewriteRows_head? (entry : StatusEntry) (layer : String)
    (additional : List String) (l : List Row) :
    (rewriteRows entry layer additional l).head? = l.head? := by
  cases l with
  | nil => rfl
  | cons h rows => rfl

theorem rewriteRows_other (entry : StatusEntry) (layer : String)
    (additional : List String) (l : List Row) (i : Nat) (row : Row)
    (hget : l.get? i = some row) (hne : row.getD 1 "" ≠ layer) :
    (rewriteRows entry layer additional l).get? i = some row := by
  cases l with
  | nil => simp at hget
  | cons h rows =>
    cases i with
    | zero =>
      simp only [List.get?_cons_zero] at hget
      simp only [rewriteRows, List.get?_cons_zero]
      exact hget
    | succ j =>
      simp only [List.get?_cons_succ] at hget
      simp only [rewriteRows, List.get?_cons_succ]
      rw [List.get?_map, hget]
      have hc : (row.getD 1 "" == layer) = false := beq_false_of_ne hne
      simp only [Option.map_some', hc, Bool.false_eq_true, if_neg,
        not_false_iff]

theorem getA_statusDictAfter_ne (ss : List (String × StatusEntry))
    (layer : String) (symbol status : Option String) (k : String)
    (hk : k ≠ layer) :
    getA (statusDictAfter ss layer symbol status) k = getA ss k := by
  unfold statusDictAfter
  have h0 : getA (if ss.any (fun kv => kv.1 == layer) then ss
      else ss ++ [(layer, [])]) k = getA ss k := by
    by_cases hany : ss.any (fun kv => kv.1 == layer) = true
    · rw [if_pos hany]
    · rw [if_neg hany]
      exact getA_append_singleton_ne ss layer k [] hk
  cases symbol with
  | none =>
    cases status with
    | none => exact h0
    | some s => rw [getA_setEntryField_ne _ layer _ _ k hk]; exact h0
  | some s =>
    cases status with
    | none => rw [getA_setEntryField_ne _ layer _ _ k hk]; exact h0
    | some s' =>
      rw [getA_setEntryField_ne _ layer _ _ k hk,
        getA_setEntryField_ne _ layer _ _ k hk]
      exact h0

/-- C9: `update_stack_status` never reorders the display: the sequence of
row names is unchanged, rows belonging to a different layer name are left
untouched (as is the header row), and status entries of other layers are
unchanged. -/
theorem update_stack_status_frame (st : StackState) (layer : String)
    (symbol status : Option String) (additional : List String) :
    ((update_stack_status st layer symbol status additional).stack.map
        (fun row => row.getD 1 ""))
      = st.stack.map (fun row => row.getD 1 "")
    ∧ (update_stack_status st layer symbol status additional).stack.head?
        = st.stack.head?
    ∧ (∀ i row, st.stack.get? i = some row → row.getD 1 "" ≠ layer →
        (update_stack_status st layer symbol status additional).stack.get? i
          = some row)
    ∧ (∀ k, k ≠ layer →
        getA (update_stack_status st layer symbol status additional).stack_status k
          = getA st.stack_status k) := by
  refine ⟨rewriteRows_names _ layer additional st.stack,
    rewriteRows_head? _ layer additional st.stack,
    fun i row hget hne => rewriteRows_other _ layer additional st.stack i row
      hget hne,
    fun k hk => getA_statusDictAfter_ne st.stack_status layer symbol status
      k hk⟩

theorem update_stack_status_frame_witness :
    (update_stack_status
        ⟨[], [], [("A", [])], [[" ", "LAYER", "STATUS", " "], ["◌", "A", "-"],
          ["◌", "B", "-"]]⟩
        "A" (some "✔") (some "done") []).stack.get? 2
      = some ["◌", "B", "-"]
    ∧ getA (update_stack_status
        ⟨[], [], [("A", []), ("B", [("symbol", "◌")])],
          [[" ", "LAYER", "STATUS", " "], ["◌", "A", "-"]]⟩
        "A" (some "✔") (some "done") []).stack_status "B"
      = some [("symbol", "◌")] := by
  constructor
  · exact (update_stack_status_frame
      ⟨[], [], [("A", [])], [[" ", "LAYER", "STATUS", " "], ["◌", "A", "-"],
        ["◌", "B", "-"]]⟩ "A" (some "✔") (some "done") []).2.2.1 2
      ["◌", "B", "-"] (by decide) (by decide)
  · exact ((update_stack_status_frame
      ⟨[], [], [("A", []), ("B", [("symbol", "◌")])],
        [[" ", "LAYER", "STATUS", " "], ["◌", "A", "-"]]⟩
      "A" (some "✔") (some "done") []).2.2.2 "B" (by decide)).trans (by decide)

/-! ## Operator selection (`prompt_toggles`, after the answers arrive)

Python's `for option in enabled_options: ... enabled_options.remove(option)`
is an index-based iterator over a list that shrinks under it: each step
reads the element at the current index, advances the index, and — when the
element is a registered mode — removes the element's first occurrence from
the list. `modeLoop` replays exactly those semantics (`fuel` is one more
than the list length, which the index can never outrun). -/

def removeFirst (x : String) : List String → List String
  | [] => []
  | y :: ys => if y == x then ys else y :: removeFirst x ys

def modeLoop (modes : List String) :
    Nat → Nat → List String → List (String × Bool) →
    List String × List (String × Bool)
  | 0, _, lst, ms => (lst, ms)
  | fuel + 1, idx, lst, ms =>
    if h : idx < lst.length then
      let x := lst.get ⟨idx, h⟩
      if x ∈ modes then
        modeLoop modes fuel (idx + 1) (removeFirst x lst) (setA ms x true)
      else
        modeLoop modes fuel (idx + 1) lst ms
    else (lst, ms)

/-- The body of `prompt_toggles` from `answers['enabled'].copy()` onwards:
run the mode loop, reset every ordered layer's toggle to `False`, then set
the toggle of every name left in `enabled_options` to `True` (with a
"Pending" stack-status update). Returns the surviving enabled list and the
updated state. -/
def prompt_process (registeredModes : List String)
    (layerOrdered enabled : List String) (st : StackState) :
    List String × StackState :=
  let r := modeLoop registeredModes (enabled.length + 1) 0 enabled
    st.stack_mode_status
  let st1 : StackState :=
    { st with
      stack_mode_status := r.2,
      stack_toggle_status := layerOrdered.foldl (fun m l => setA m l false)
        st.stack_toggle_status }
  let st2 := r.1.foldl (fun s l =>
      update_stack_status
        { s with stack_toggle_status := setA s.stack_toggle_status l true }
        l (some "◌") (some "Pending") []) st1
  (r.1, st2)

/-- C3: with two registered modes adjacent in the enabled list, the
iterator skips the second one after the first is removed: `M2`'s mode
status stays `false`, `M2` survives in `enabled_options`, and the layer
loop then sets a *toggle* `M2 ↦ true`, treating the mode as a layer. -/
theorem prompt_adjacent_modes_misclassified :
    (prompt_process ["M1", "M2"] ["L1"] ["M1", "M2"]
        ⟨[("M1", false), ("M2", false)], [("L1", false)], [],
          [[" ", "LAYER", "STATUS", " "]]⟩).1 = ["M2"]
    ∧ getA (prompt_process ["M1", "M2"] ["L1"] ["M1", "M2"]
        ⟨[("M1", false), ("M2", false)], [("L1", false)], [],
          [[" ", "LAYER", "STATUS", " "]]⟩).2.stack_mode_status "M2"
      = some false
    ∧ getA (prompt_process ["M1", "M2"] ["L1"] ["M1", "M2"]
        ⟨[("M1", false), ("M2", false)], [("L1", false)], [],
          [[" ", "LAYER", "STATUS", " "]]⟩).2.stack_toggle_status "M2"
      = some true := by
  refine ⟨by decide, by decide, by decide⟩

/-- C10 counterexample: a mode that *is* in the enabled set can end the
selection step with status `false` (the skipped adjacent mode), refuting
"status is true whenever ... the mode is in the enabled set". -/
theorem prompt_enabled_mode_not_set_cex :
    ("M2" : String) ∈ ["M1", "M2"]
    ∧ getA (prompt_process ["M1", "M2"] ["L1"] ["M1", "M2"]
        ⟨[("M1", false), ("M2", false)], [("L1", false)], [],
          [[" ", "LAYER", "STATUS", " "]]⟩).2.stack_mode_status "M2"
      ≠ some true := by
  refine ⟨by decide, by decide⟩

theorem mem_removeFirst (x a : String) :
    ∀ l : List String, a ∈ removeFirst x l → a ∈ l := by
  intro l
  induction l with
  | nil => intro h; exact h
  | cons y ys ih =>
    intro h
    by_cases hy : (y == x) = true
    · simp only [removeFirst, hy, if_pos] at h
      exact List.mem_cons_of_mem y h
    · simp only [removeFirst, hy] at h
      rw [if_neg (by simp [hy])] at h
      rcases List.mem_cons.mp h with he | hm
      · exact he ▸ List.mem_cons_self y ys
      · exact List.mem_cons_of_mem y (ih hm)

/-- The mode loop only ever writes `true` into the mode map, and only at
names drawn from the list it iterates over. -/
theorem modeLoop_mode_status (modes : List String) :
    ∀ (fuel idx : Nat) (lst : List String) (ms : List (String × Bool))
      (m : String),
      (getA ms m = some true →
        getA (modeLoop modes fuel idx lst ms).2 m = some true)
      ∧ (m ∉ lst → getA (modeLoop modes fuel idx lst ms).2 m = getA ms m) := by
  intro fuel
  induction fuel with
  | zero => intro idx lst ms m; exact ⟨fun h => h, fun _ => rfl⟩
  | succ n ih =>
    intro idx lst ms m
    unfold modeLoop
    by_cases hlen : idx < lst.length
    · rw [dif_pos hlen]
      by_cases hx : lst.get ⟨idx, hlen⟩ ∈ modes
      · rw [if_pos hx]
        constructor
        · intro htrue
          apply (ih (idx + 1) (removeFirst (lst.get ⟨idx, hlen⟩) lst)
            (setA ms (lst.get ⟨idx, hlen⟩) true) m).1
          by_cases hm : m = lst.get ⟨idx, hlen⟩
          · rw [hm, getA_setA_self]
          · rw [getA_setA_ne ms _ m true hm]
            exact htrue
        · intro hnm
          have hxm : lst.get ⟨idx, hlen⟩ ≠ m :=
            fun he => hnm (he ▸ lst.get_mem idx hlen)
          have hnm' : m ∉ removeFirst (lst.get ⟨idx, hlen⟩) lst :=
            fun hc => hnm (mem_removeFirst _ m lst hc)
          rw [(ih (idx + 1) _ _ m).2 hnm',
            getA_setA_ne ms _ m true (fun he => hxm he.symm)]
      · rw [if_neg hx]
        constructor
        · exact fun htrue => (ih (idx + 1) lst ms m).1 htrue
        · exact fun hnm => (ih (idx + 1) lst ms m).2 hnm
    · rw [dif_neg hlen]
      exact ⟨fun h => h, fun _ => rfl⟩

theorem update_stack_status_mode (s : StackState) (l : String)
    (symbol status : Option String) (additional : List String) :
    (update_stack_status s l symbol status additional).stack_mode_status
      = s.stack_mode_status := rfl

theorem foldl_pending_mode (ls : List String) :
    ∀ s : StackState,
      (ls.foldl (fun s l =>
          update_stack_status
            { s with stack_toggle_status := setA s.stack_toggle_status l true }
            l (some "◌") (some "Pending") []) s).stack_mode_status
        = s.stack_mode_status := by
  induction ls with
  | nil => intro s; rfl
  | cons l ls ih =>
    intro s
    rw [List.foldl_cons, ih]
    rfl

/-- C10 amended: the selection step never flips a mode's status from true
to false — a mode whose status was true keeps status true — and a mode not
in the enabled set retains its previous status value unchanged. (The
original claim's parenthetical "or the mode is in the enabled set" fails:
see the counterexample.) -/
theorem prompt_mode_status_monotone (registeredModes : List String)
    (layerOrdered enabled : List String) (st : StackState) (m : String) :
    (getA st.stack_mode_status m = some true →
      getA (prompt_process registeredModes layerOrdered enabled
        st).2.stack_mode_status m = some true)
    ∧ (m ∉ enabled →
      getA (prompt_process registeredModes layerOrdered enabled
        st).2.stack_mode_status m = getA st.stack_mode_status m) := by
  have hml := modeLoop_mode_status registeredModes (enabled.length + 1) 0
    enabled st.stack_mode_status m
  have heq : (prompt_process registeredModes layerOrdered enabled
      st).2.stack_mode_status
      = (modeLoop registeredModes (enabled.length + 1) 0 enabled
          st.stack_mode_status).2 := by
    simp only [prompt_process]
    rw [foldl_pending_mode]
  rw [heq]
  exact hml

theorem prompt_mode_status_monotone_witness :
    getA (prompt_process ["M1"] ["L1"] ["M1"]
        ⟨[("M1", false), ("M2", true)], [("L1", false)], [],
          [[" ", "LAYER", "STATUS", " "]]⟩).2.stack_mode_status "M2"
      = some true
    ∧ getA (prompt_process ["M1"] ["L1"] ["M1"]
        ⟨[("M1", false), ("M2", true)], [("L1", false)], [],
          [[" ", "LAYER", "STATUS", " "]]⟩).2.stack_mode_status "M3"
      = getA ([("M1", false), ("M2", true)] : List (String × Bool)) "M3" := by
  constructor
  · exact (prompt_mode_status_monotone ["M1"] ["L1"] ["M1"]
      ⟨[("M1", false), ("M2", true)], [("L1", false)], [],
        [[" ", "LAYER", "STATUS", " "]]⟩ "M2").1 (by decide)
  · exact (prompt_mode_status_monotone ["M1"] ["L1"] ["M1"]
      ⟨[("M1", false), ("M2", true)], [("L1", false)], [],
        [[" ", "LAYER", "STATUS", " "]]⟩ "M3").2 (by decide)

/-! ## Deploy outcome interpretation (`DevStack.deploy`, per-layer) -/

/-- The `(symbol, status)` pair `DevStack.deploy` passes to
`update_stack_status` for a layer whose `deploy()` returned `ret`. -/
def deployOutcome (ret : Int) : String × String :=
  if ret = 0 then ("✔", " 👍 Layer is up.")
  else if ret < 0 then ("❌", " 👎 Failed")
  else ("✔", "Complete")

/-- One enabled layer's execution in the deploy loop: mark it in-progress,
run `deploy()`, record the outcome. -/
def deployStep (st : StackState) (layer : String) (ret : Int) : StackState :=
  let st1 := update_stack_status st layer (some "...")
    (some " 🤞 Deploying Layer") []
  update_stack_status st1 layer (some (deployOutcome ret).1)
    (some (deployOutcome ret).2) []

/-- A sample state holding the single enabled layer `LayerX`, as `__order`
leaves it (pending symbol, `-` status). -/
def sampleState : StackState :=
  ⟨[], [("LayerX", true)],
    [("LayerX", [("symbol", "◌"), ("key", "LayerX"), ("status", "-")])],
    [[" ", "LAYER", "STATUS", " "], ["◌", "LayerX", "-"]]⟩

/-- C5: a deploy return of `0` records the success pair, a negative return
records the failure pair, and any other return records the "Complete" pair,
which differs from both (its status text differs from both, though it
shares the `✔` symbol with success); concretely, `LayerX`'s resulting stack
status entries for returns `0`, `-1` and `5` are pairwise distinct. -/
theorem deploy_return_classification (ret : Int) :
    (ret = 0 → deployOutcome ret = ("✔", " 👍 Layer is up."))
    ∧ (ret < 0 → deployOutcome ret = ("❌", " 👎 Failed"))
    ∧ (ret ≠ 0 → ¬ret < 0 → deployOutcome ret = ("✔", "Complete"))
    ∧ (("✔", "Complete") : String × String) ≠ ("✔", " 👍 Layer is up.")
    ∧ (("✔", "Complete") : String × String) ≠ ("❌", " 👎 Failed")
    ∧ getA (deployStep sampleState "LayerX" 0).stack_status "LayerX"
        ≠ getA (deployStep sampleState "LayerX" 5).stack_status "LayerX"
    ∧ getA (deployStep sampleState "LayerX" (-1)).stack_status "LayerX"
        ≠ getA (deployStep sampleState "LayerX" 5).stack_status "LayerX"
    ∧ getA (deployStep sampleState "LayerX" 0).stack_status "LayerX"
        ≠ getA (deployStep sampleState "LayerX" (-1)).stack_status "LayerX" := by
  refine ⟨?_, ?_, ?_, by decide, by decide, by decide, by decide, by decide⟩
  · intro h
    rw [deployOutcome, if_pos h]
  · intro h
    have hne : ¬ret = 0 := by omega
    rw [deployOutcome, if_neg hne, if_pos h]
  · intro h1 h2
    rw [deployOutcome, if_neg h1, if_neg h2]

theorem deploy_return_classification_witness :
    deployOutcome 0 = ("✔", " 👍 Layer is up.")
    ∧ deployOutcome (-1) = ("❌", " 👎 Failed")
    ∧ deployOutcome 5 = ("✔", "Complete") :=
  ⟨(deploy_return_classification 0).1 rfl,
    (deploy_return_classification (-1)).2.1 (by omega),
    (deploy_return_classification 5).2.2.1 (by omega) (by omega)⟩

end DevStackModel
